import Mathlib

/-!
Verification development for the Iconize and Pixelate image service
(src/api/main.py). The two transform pipelines are embedded shallowly:

* Bitmaps are rectangular pixel grids stored row major as lists
  (grayscale masks hold one Nat per pixel, color images hold Nat triples,
  RGBA images hold four channel records), exactly the content of the
  uint8 buffers the Python code manipulates.
* Library primitives from Pillow and numpy that the code calls are
  modelled from their documented contracts where a claim depends on them
  (grayscale luma, point mapping, 3x3 maximum filter with zero padding,
  channel subtraction with clamping, alpha compositing, nearest neighbor
  resampling, color parsing). The Gaussian blur of smooth_edges is kept
  as an explicit function parameter: no claim depends on the blur kernel,
  only on the rethresholding applied after it, so every theorem below
  quantifies over the blur.
* Python ints are Int; uint8 pixel values are Nat. Python floor division
  is Int.fdiv. The float32 arithmetic of the quantizer is exact integer
  arithmetic for squared distances (values stay far below 2^24); cluster
  means are represented exactly as (channel sums, point count) pairs,
  determining the rational value sum / count that the float32 mean
  approximates. No claim compares palette values across different inputs,
  so the representation is only required to determine the value.
* Fallible code (color parsing errors, numpy sampling errors, division
  by zero) returns Except String; an Except.error models the endpoint
  catching the exception and returning an HTTP 400 text response with no
  image bytes, while Except.ok models a 200 PNG response.
-/

/-- Grayscale (mode L) bitmap: row major uint8 samples. -/
structure Img where
  width : Nat
  height : Nat
  data : List Nat
deriving DecidableEq

/-- Color triple of uint8 channel values. -/
abbrev RGB := Nat × Nat × Nat

/-- RGB bitmap: row major triples, the decoded form every uploaded image is
converted to before the pixelate pipeline, and the raster content the iconize
pipeline reads through its grayscale conversion. -/
structure RGBImg where
  width : Nat
  height : Nat
  data : List RGB
deriving DecidableEq

/-- RGBA pixel. -/
structure RGBA where
  r : Nat
  g : Nat
  b : Nat
  a : Nat
deriving DecidableEq

/-- RGBA bitmap: row major RGBA records. -/
structure RGBAImg where
  width : Nat
  height : Nat
  data : List RGBA
deriving DecidableEq

/-- Row major pixel grid built from a coordinate function. -/
def mkData {α : Type} (w h : Nat) (f : Nat → Nat → α) : List α :=
  (List.range (w * h)).map (fun i => f (i % w) (i / w))

/-- Pixel accessor of a grayscale image, out of range reads give 0. -/
def Img.px (m : Img) (x y : Nat) : Nat :=
  m.data.getD (y * m.width + x) 0

/-- Pixel accessor of an RGB image. -/
def RGBImg.px (m : RGBImg) (x y : Nat) : RGB :=
  m.data.getD (y * m.width + x) (0, 0, 0)

/-- Pixel accessor of an RGBA image. -/
def RGBAImg.px (m : RGBAImg) (x y : Nat) : RGBA :=
  m.data.getD (y * m.width + x) ⟨0, 0, 0, 0⟩

/-- Index bound for row major storage. -/
theorem rowmajor_lt {w h x y : Nat} (hx : x < w) (hy : y < h) :
    y * w + x < w * h := by
  calc y * w + x < y * w + w := by omega
  _ = (y + 1) * w := by ring
  _ ≤ h * w := Nat.mul_le_mul_right w hy
  _ = w * h := Nat.mul_comm h w

theorem mkData_getD {α : Type} {w h x y : Nat} (f : Nat → Nat → α) (d : α)
    (hx : x < w) (hy : y < h) : (mkData w h f).getD (y * w + x) d = f x y := by
  have hlt : y * w + x < w * h := rowmajor_lt hx hy
  have hw : 0 < w := Nat.pos_of_ne_zero (by omega)
  unfold mkData
  rw [List.getD_eq_getElem?_getD, List.getElem?_map, List.getElem?_range hlt]
  show f ((y * w + x) % w) ((y * w + x) / w) = f x y
  rw [Nat.mul_comm y w, Nat.mul_add_mod, Nat.mod_eq_of_lt hx,
    Nat.mul_add_div hw, Nat.div_eq_of_lt hx, Nat.add_zero]

theorem mkData_length {α : Type} (w h : Nat) (f : Nat → Nat → α) :
    (mkData w h f).length = w * h := by
  simp [mkData]

theorem mkData_mem {α : Type} {w h : Nat} {f : Nat → Nat → α} {v : α}
    (hv : v ∈ mkData w h f) : ∃ x y, x < w ∧ y < h ∧ v = f x y := by
  unfold mkData at hv
  rcases List.mem_map.mp hv with ⟨i, hi, hfi⟩
  have hiwh : i < w * h := List.mem_range.mp hi
  have hw : 0 < w := by
    rcases Nat.eq_zero_or_pos w with h0 | h0
    · rw [h0] at hiwh; simp at hiwh
    · exact h0
  exact ⟨i % w, i / w, Nat.mod_lt i hw, Nat.div_lt_of_lt_mul hiwh, hfi.symm⟩

theorem getD_mem_of_lt {α : Type} {l : List α} {i : Nat} (d : α)
    (h : i < l.length) : l.getD i d ∈ l := by
  rw [List.getD_eq_getElem?_getD, List.getElem?_eq_getElem h]
  exact List.getElem_mem h

theorem getD_eq_default_of_le {α : Type} {l : List α} {i : Nat} (d : α)
    (h : l.length ≤ i) : l.getD i d = d := by
  rw [List.getD_eq_getElem?_getD, List.getElem?_eq_none h]
  rfl

theorem px_mk (w h : Nat) (f : Nat → Nat → Nat) {x y : Nat} (hx : x < w)
    (hy : y < h) : (Img.mk w h (mkData w h f)).px x y = f x y := by
  show (mkData w h f).getD (y * w + x) 0 = f x y
  exact mkData_getD f 0 hx hy

/-! Iconize pipeline, embedding src/api/main.py lines 50 to 122. -/

/-- Luma used by the Pillow grayscale conversion (mode L, ITU-R 601-2 fixed
point form with rounding, as implemented by convert): this models
ImageOps.grayscale of line 51. -/
def luma (c : RGB) : Nat :=
  (c.1 * 19595 + c.2.1 * 38470 + c.2.2 * 7471 + 32768) / 65536

/-- Embeds to_grayscale (line 50): mode L image of luma values. -/
def to_grayscale (img : RGBImg) : Img :=
  ⟨img.width, img.height, mkData img.width img.height (fun x y => luma (img.px x y))⟩

/-- Pillow point operation: maps every sample through f, keeping dimensions. -/
def imPoint (m : Img) (f : Nat → Nat) : Img :=
  ⟨m.width, m.height, mkData m.width m.height (fun x y => f (m.px x y))⟩

/-- Embeds binarize (lines 53 to 58): grayscale then threshold to an L mask
with 0 for ink and 255 for background. The threshold is a Python int. -/
def binarize (img : RGBImg) (threshold : Int) : Img :=
  imPoint (to_grayscale img) (fun p => if threshold < (p : Int) then 255 else 0)

/-- Embeds smooth_edges (lines 60 to 62). The Gaussian blur of radius 1.2 is a
Pillow primitive outside this repository; it is passed as the blur parameter,
and the embedded stage applies the point rethreshold at 127 that follows it.
The final convert to mode L is the identity on L images. -/
def smooth_edges (blur : Img → Img) (mask : Img) : Img :=
  imPoint (blur mask) (fun p => if 127 < p then 255 else 0)

/-- Padded sample access: models reading the numpy array of line 71 after
np.pad(arr, 1, constant_values=0); coordinates outside the image read 0. -/
def getPad (m : Img) (x y : Int) : Nat :=
  if 0 ≤ x ∧ x < (m.width : Int) ∧ 0 ≤ y ∧ y < (m.height : Int) then
    m.data.getD (y.toNat * m.width + x.toNat) 0
  else 0

/-- Maximum of the 3x3 neighborhood, as the nine shifted slices reduced with
np.maximum (lines 72 to 76). -/
def neighborhoodMax (m : Img) (x y : Nat) : Nat :=
  let g : Int → Int → Nat := fun dx dy => getPad m ((x : Int) + dx) ((y : Int) + dy)
  max (max (max (g (-1) (-1)) (g 0 (-1))) (max (g 1 (-1)) (g (-1) 0)))
      (max (max (g 0 0) (g 1 0)) (max (g (-1) 1) (max (g 0 1) (g 1 1))))

/-- One round of the 3x3 maximum filter. -/
def dilateOnce (m : Img) : Img :=
  ⟨m.width, m.height, mkData m.width m.height (neighborhoodMax m)⟩

/-- Iterated maximum filter. -/
def dilateIter : Nat → Img → Img
  | 0, m => m
  | n + 1, m => dilateOnce (dilateIter n m)

/-- Embeds thicken (lines 64 to 77): the 3x3 maximum filter repeated
range(max(0, iterations)) times; the numpy round trip keeps the L samples. -/
def thicken (mask : Img) (iterations : Int) : Img :=
  dilateIter (max 0 iterations).toNat mask

/-- Pillow ImageChops.subtract with default scale and offset: channelwise
difference clamped into the uint8 range (truncated subtraction clamps at
zero, min clamps at 255). -/
def imSubtract (a b : Img) : Img :=
  ⟨a.width, a.height,
   mkData a.width a.height (fun x y => min (a.px x y - b.px x y) 255)⟩

/-- Embeds stroke_from_mask (lines 79 to 84): an all zero L image for
width <= 0, otherwise the clamped difference between the mask dilated
max(1, width // 2) times and the mask itself. -/
def stroke_from_mask (mask : Img) (width : Int) : Img :=
  if width ≤ 0 then
    ⟨mask.width, mask.height, mkData mask.width mask.height (fun _ _ => 0)⟩
  else
    imSubtract (thicken mask (max 1 (Int.fdiv width 2))) mask

theorem dilateIter_width (n : Nat) (m : Img) : (dilateIter n m).width = m.width := by
  induction n with
  | zero => rfl
  | succ k ih => simp [dilateIter, dilateOnce, ih]

theorem dilateIter_height (n : Nat) (m : Img) : (dilateIter n m).height = m.height := by
  induction n with
  | zero => rfl
  | succ k ih => simp [dilateIter, dilateOnce, ih]

theorem thicken_width (m : Img) (it : Int) : (thicken m it).width = m.width :=
  dilateIter_width _ m

theorem thicken_height (m : Img) (it : Int) : (thicken m it).height = m.height :=
  dilateIter_height _ m

/-! Color parsing and RGBA layer assembly, embedding lines 86 to 122. -/

/-- ASCII lowercase of one character, the case folding Python lower applies
to the ASCII strings exchanged here (color names, form field values). -/
def lowerChar (c : Char) : Char :=
  if ('A' ≤ c ∧ c ≤ 'Z') then Char.ofNat (c.toNat + 32) else c

/-- ASCII lowercase of a string. -/
def lowerStr (s : String) : String := ⟨s.data.map lowerChar⟩

/-- Hexadecimal digit value. -/
def hexDigit (c : Char) : Option Nat :=
  if ('0' ≤ c ∧ c ≤ '9') then some (c.toNat - 48)
  else if ('a' ≤ c ∧ c ≤ 'f') then some (c.toNat - 97 + 10)
  else if ('A' ≤ c ∧ c ≤ 'F') then some (c.toNat - 65 + 10)
  else none

/-- Hexadecimal digit values of a character list, none if any is invalid. -/
def hexNibbles : List Char → Option (List Nat)
  | [] => some []
  | c :: t =>
    match hexDigit c, hexNibbles t with
    | some v, some vs => some (v :: vs)
    | _, _ => none

/-- Named colors recognized by the parser. Pillow accepts the full CSS3 name
table; the model carries a representative subset (every claim exercises only
hex strings and one unrecognized name, which is in no color table). -/
def namedColors : List (String × RGBA) :=
  [("black", ⟨0, 0, 0, 255⟩), ("white", ⟨255, 255, 255, 255⟩),
   ("red", ⟨255, 0, 0, 255⟩), ("lime", ⟨0, 255, 0, 255⟩),
   ("green", ⟨0, 128, 0, 255⟩), ("blue", ⟨0, 0, 255, 255⟩),
   ("yellow", ⟨255, 255, 0, 255⟩), ("cyan", ⟨0, 255, 255, 255⟩),
   ("magenta", ⟨255, 0, 255, 255⟩), ("gray", ⟨128, 128, 128, 255⟩),
   ("grey", ⟨128, 128, 128, 255⟩), ("orange", ⟨255, 165, 0, 255⟩),
   ("purple", ⟨128, 0, 128, 255⟩), ("brown", ⟨165, 42, 42, 255⟩),
   ("pink", ⟨255, 192, 203, 255⟩)]

/-- Models Pillow ImageColor.getrgb as invoked by Image.new: hash prefixed
hex forms of 3, 4, 6 or 8 digits, else a named color lookup; any other string
raises ValueError, modelled as none. -/
def parseColor (s : String) : Option RGBA :=
  match s.toList with
  | '#' :: rest =>
    match hexNibbles rest with
    | some [r, g, b] => some ⟨17 * r, 17 * g, 17 * b, 255⟩
    | some [r, g, b, a] => some ⟨17 * r, 17 * g, 17 * b, 17 * a⟩
    | some [r1, r2, g1, g2, b1, b2] =>
      some ⟨16 * r1 + r2, 16 * g1 + g2, 16 * b1 + b2, 255⟩
    | some [r1, r2, g1, g2, b1, b2, a1, a2] =>
      some ⟨16 * r1 + r2, 16 * g1 + g2, 16 * b1 + b2, 16 * a1 + a2⟩
    | _ => none
  | _ => (namedColors.find? (fun p => p.1 == lowerStr s)).map Prod.snd

/-- Error raised for an unparseable color string. -/
def colorError : String := "unrecognized color specifier"

/-- Color parsing as a fallible step: the ValueError raised inside Image.new
propagates to the endpoint handler. -/
def getColor (s : String) : Except String RGBA :=
  match parseColor s with
  | some c => Except.ok c
  | none => Except.error colorError

/-- Models Image.new of mode RGBA with a solid fill color. -/
def newRGBA (w h : Nat) (c : RGBA) : RGBAImg :=
  ⟨w, h, List.replicate (w * h) c⟩

/-- Models putalpha: replaces the alpha band with the given L image. -/
def putalpha (img : RGBAImg) (alpha : Img) : RGBAImg :=
  ⟨img.width, img.height,
   mkData img.width img.height (fun x y => { img.px x y with a := alpha.px x y })⟩

/-- Source over blend of one straight alpha pixel pair, with the integer
scaling and rounding of the Pillow alpha_composite primitive; a fully
transparent result is the zero pixel. -/
def overPixel (d s : RGBA) : RGBA :=
  let outa255 := s.a * 255 + d.a * (255 - s.a)
  if outa255 = 0 then ⟨0, 0, 0, 0⟩
  else
    ⟨(s.r * (s.a * 255) + d.r * (d.a * (255 - s.a)) + outa255 / 2) / outa255,
     (s.g * (s.a * 255) + d.g * (d.a * (255 - s.a)) + outa255 / 2) / outa255,
     (s.b * (s.a * 255) + d.b * (d.a * (255 - s.a)) + outa255 / 2) / outa255,
     (outa255 + 127) / 255⟩

/-- Models Image.alpha_composite(dst, src): pixelwise source over blending
(Pillow requires equal sizes; the model blends over the destination grid). -/
def alphaComposite (dst src : RGBAImg) : RGBAImg :=
  ⟨dst.width, dst.height,
   mkData dst.width dst.height (fun x y => overPixel (dst.px x y) (src.px x y))⟩

/-- Mask of the iconize pipeline (lines 97 to 99): binarize, smooth with the
given blur, then one dilation round. -/
def icon_mask (blur : Img → Img) (img : RGBImg) (threshold : Int) : Img :=
  thicken (smooth_edges blur (binarize img threshold)) 1

/-- Embeds flat_iconize (lines 86 to 122). The blur parameter stands for the
Pillow Gaussian blur used by smooth_edges; fg and bg are the raw color
strings handed to Image.new, with bg following the Python truthiness test of
line 111 (None and the empty string keep the transparent base). -/
def flat_iconize (blur : Img → Img) (img : RGBImg) (fg : String)
    (bg : Option String) (threshold stroke_px : Int) : Except String RGBAImg :=
  let mask := icon_mask blur img threshold
  let W := img.width
  let H := img.height
  let alpha := imPoint mask (fun p => if 0 < p then 0 else 255)
  match getColor fg with
  | Except.error e => Except.error e
  | Except.ok fgc =>
    let fg_layer := putalpha (newRGBA W H fgc) alpha
    let base0 := newRGBA W H ⟨0, 0, 0, 0⟩
    let baseRes : Except String RGBAImg :=
      match bg with
      | none => Except.ok base0
      | some s =>
        if s = "" then Except.ok base0
        else
          match getColor s with
          | Except.error e => Except.error e
          | Except.ok c => Except.ok (newRGBA W H c)
    match baseRes with
    | Except.error e => Except.error e
    | Except.ok base =>
      let base2Res : Except String RGBAImg :=
        if 0 < stroke_px then
          let st := stroke_from_mask mask stroke_px
          let sAlpha := imPoint st (fun p => if 0 < p then 255 else 0)
          match getColor "#000000" with
          | Except.error e => Except.error e
          | Except.ok sc =>
            Except.ok (alphaComposite base (putalpha (newRGBA W H sc) sAlpha))
        else Except.ok base
      match base2Res with
      | Except.error e => Except.error e
      | Except.ok base2 => Except.ok (alphaComposite base2 fg_layer)

/-- Embeds hex_or_none (lines 39 to 46): empty strings and any casing of
transparent map to None, other strings are passed on stripped. -/
def hex_or_none (s : String) : Option String :=
  if s = "" then none
  else
    let t := s.trim
    if t = "" ∨ lowerStr t = "transparent" then none else some t

/-- Embeds the iconize endpoint (lines 172 to 197) after upload decoding:
an Except.error models the handler catching the exception and answering
HTTP 400 with no image bytes. -/
def iconize_endpoint (blur : Img → Img) (img : RGBImg) (fg_color bg_color : String)
    (threshold stroke_px : Int) : Except String RGBAImg :=
  flat_iconize blur img fg_color (hex_or_none bg_color) threshold stroke_px

/-! Pixelate pipeline, embedding lines 126 to 166 and 199 to 221. -/

/-- Row major color list of an image: arr.reshape(-1, 3) of line 141. -/
def colorsFlat (img : RGBImg) : List RGB :=
  mkData img.width img.height (fun x y => img.px x y)

/-- Squared euclidean color distance of line 147. The float32 arithmetic is
exact here: channel differences are at most 255, so every square and their
sum stay far below 2 to the 24. -/
def sqDist (c d : RGB) : Int :=
  ((c.1 : Int) - (d.1 : Int)) ^ 2 + ((c.2.1 : Int) - (d.2.1 : Int)) ^ 2 +
    ((c.2.2 : Int) - (d.2.2 : Int)) ^ 2

/-- Minimum of a list of integers (value of np.min over a nonempty axis). -/
def listMin : List Int → Int
  | [] => 0
  | [v] => v
  | v :: t => min v (listMin t)

/-- Models np.argmin over one axis: index of the first occurrence of the
minimum value. -/
def argminList (l : List Int) : Nat :=
  l.findIdx (fun v => v == listMin l)

/-- Number of cluster centers (line 143): max(2, min(palette_size, pixels)). -/
def nClusters (palette_size : Int) (cnt : Nat) : Nat :=
  (max 2 (min palette_size (cnt : Int))).toNat

/-- Models rng.choice(cnt, size=n, replace=False) for the generator seeded
with 42 on line 144: a deterministic sample of n distinct indices below cnt,
raising ValueError when the sample is larger than the population. The
documented contract fixes determinism, distinctness and the range; the
concrete PCG64 index stream is not reproduced and is modelled as the first
n indices. -/
def sampleIndices (cnt n : Nat) : Except String (List Nat) :=
  if n ≤ cnt then Except.ok (List.range n)
  else Except.error "cannot take a larger sample than population when replace is false"

/-- Cluster mean represented exactly: channel sums and the point count. The
float32 mean of line 153 is the rational value sum over count; an empty
cluster keeps its seed center (count one). -/
abbrev Center := (Int × Int × Int) × Nat

/-- Mean of a cluster, or the seed center if the cluster is empty. -/
def clusterMean (pts : List RGB) (seed : RGB) : Center :=
  match pts with
  | [] => (((seed.1 : Int), (seed.2.1 : Int), (seed.2.2 : Int)), 1)
  | _ =>
    (((pts.map (fun c => (c.1 : Int))).sum,
      (pts.map (fun c => (c.2.1 : Int))).sum,
      (pts.map (fun c => (c.2.2 : Int))).sum), pts.length)

/-- Embeds the clustering stage of pixelate (lines 138 to 155): seed centers
sampled without replacement with the fixed seed, one assignment step by
squared distance with first index tie breaking, one update step replacing
each nonempty cluster center by its mean. Returns the label map and the
palette. -/
def quantize (img : RGBImg) (palette_size : Int) :
    Except String (List Nat × List Center) :=
  let flat := colorsFlat img
  let cnt := flat.length
  let n := nClusters palette_size cnt
  match sampleIndices cnt n with
  | Except.error e => Except.error e
  | Except.ok idx =>
    let centers0 := idx.map (fun i => flat.getD i (0, 0, 0))
    let labels := flat.map (fun c => argminList (centers0.map (fun c0 => sqDist c c0)))
    let centers := (List.range n).map (fun k =>
      let pts := (labels.zip flat).filterMap (fun p => if p.1 = k then some p.2 else none)
      clusterMean pts (centers0.getD k (0, 0, 0)))
    Except.ok (labels, centers)

/-- Channel value of a center after the astype(np.uint8) cast of line 155:
float to uint8 conversion truncates toward zero, the floor for these
nonnegative means. -/
def centerByte (sum : Int) (cnt : Nat) : Nat :=
  (Int.fdiv sum (cnt : Int)).toNat

/-- Color of a center after the uint8 cast. -/
def centerColor (c : Center) : RGB :=
  (centerByte c.1.1 c.2, centerByte c.1.2.1 c.2, centerByte c.1.2.2 c.2)

/-- Image mapped through the palette (line 155): centers[labels] reshaped to
the source grid and cast to uint8. -/
def mappedImage (img : RGBImg) (labels : List Nat) (centers : List Center) : RGBImg :=
  ⟨img.width, img.height,
   mkData img.width img.height (fun x y =>
     centerColor (centers.getD (labels.getD (y * img.width + x) 0) ((0, 0, 0), 1)))⟩

/-- Source index sampled by the Pillow nearest neighbor resize: the source
position under the center of destination pixel i, clamped into range. -/
def srcIndex (dst src i : Nat) : Nat :=
  min (src - 1) ((2 * i + 1) * src / (2 * dst))

/-- Models resize with Image.NEAREST (lines 161 to 162). -/
def resizeNearest (img : RGBImg) (w2 h2 : Nat) : RGBImg :=
  ⟨w2, h2,
   mkData w2 h2 (fun x y =>
     img.px (srcIndex w2 img.width x) (srcIndex h2 img.height y))⟩

/-- Remap applied by the adaptive palette conversion when the requested
color count is admissible: every pixel goes to its nearest entry of an n
color palette computed adaptively from the image. The Pillow median cut
construction is modelled as keeping the first n distinct colors; every image
this pipeline feeds the step already has at most n distinct colors, and on
such images any adaptive palette retains every color exactly, which is the
only property the theorems below use. -/
def convertAdaptive (n : Nat) (img : RGBImg) : RGBImg :=
  let pal := img.data.dedup.take n
  ⟨img.width, img.height,
   img.data.map (fun c => pal.getD (argminList (pal.map (fun p => sqDist c p))) c)⟩

/-- Models convert(P, palette=ADAPTIVE, colors=n) followed by convert(RGB)
on line 165. Pillow rejects a palette of more than 256 entries: its
quantizer raises ValueError (bad number of colors), which the endpoint turns
into a client error. For an admissible count the step is the pointwise
remap convertAdaptive. -/
def convertAdaptiveE (n : Nat) (img : RGBImg) : Except String RGBImg :=
  if 256 < n then Except.error "bad number of colors"
  else Except.ok (convertAdaptive n img)

/-- Embeds pixelate (lines 126 to 166): quantize, nearest downscale to
max(1, size // pixel_size), nearest upscale back, and the optional adaptive
palette conversion applied to the upscaled image. A zero pixel_size raises
ZeroDivisionError at line 159; Python floor division is Int.fdiv. -/
def pixelate (img : RGBImg) (palette_size pixel_size : Int) (dither : Bool) :
    Except String RGBImg :=
  match quantize img palette_size with
  | Except.error e => Except.error e
  | Except.ok (labels, centers) =>
    let mapped := mappedImage img labels centers
    if pixel_size = 0 then Except.error "integer division or modulo by zero"
    else
      let down_w := (max 1 (Int.fdiv (img.width : Int) pixel_size)).toNat
      let down_h := (max 1 (Int.fdiv (img.height : Int) pixel_size)).toNat
      let down := resizeNearest mapped down_w down_h
      let up := resizeNearest down img.width img.height
      if dither then
        convertAdaptiveE (nClusters palette_size (colorsFlat img).length) up
      else Except.ok up

/-- Dithering pipeline in the order the specification describes (section 4.6
of the spec): the adaptive palette step applied to the intermediate
downsampled image, before the upscale. Written from the words of the spec to
compare with the embedded pixelate. -/
def pixelateSpecDither (img : RGBImg) (palette_size pixel_size : Int) :
    Except String RGBImg :=
  match quantize img palette_size with
  | Except.error e => Except.error e
  | Except.ok (labels, centers) =>
    let mapped := mappedImage img labels centers
    if pixel_size = 0 then Except.error "integer division or modulo by zero"
    else
      let down_w := (max 1 (Int.fdiv (img.width : Int) pixel_size)).toNat
      let down_h := (max 1 (Int.fdiv (img.height : Int) pixel_size)).toNat
      let down := resizeNearest mapped down_w down_h
      match convertAdaptiveE (nClusters palette_size (colorsFlat img).length) down with
      | Except.error e => Except.error e
      | Except.ok down2 => Except.ok (resizeNearest down2 img.width img.height)

/-- Embeds the pixelate endpoint (lines 199 to 221) after upload decoding:
the dither form field is compared case insensitively against true, and any
exception becomes an HTTP 400 text response with no image bytes. -/
def pixelate_endpoint (img : RGBImg) (palette_size pixel_size : Int)
    (dither : String) : Except String RGBImg :=
  pixelate img palette_size pixel_size (lowerStr dither == "true")

/-- Successful outcome test: true exactly when the endpoint would answer 200
with image bytes. -/
def exceptOk {α : Type} : Except String α → Bool
  | Except.ok _ => true
  | Except.error _ => false

deriving instance DecidableEq for Except

/-! Named stages of the successful quantizer run, the values the match arm of
quantize binds when the index sampling succeeds. -/

/-- Seed centers: the colors at the sampled indices (line 145). -/
def seedColors (img : RGBImg) (palette_size : Int) : List RGB :=
  (List.range (nClusters palette_size (colorsFlat img).length)).map
    (fun i => (colorsFlat img).getD i (0, 0, 0))

/-- Label map of the assignment step (lines 147 and 148). -/
def quantizeLabels (img : RGBImg) (palette_size : Int) : List Nat :=
  (colorsFlat img).map
    (fun c => argminList ((seedColors img palette_size).map (fun c0 => sqDist c c0)))

/-- Palette after the update step (lines 150 to 153). -/
def quantizeCenters (img : RGBImg) (palette_size : Int) : List Center :=
  (List.range (nClusters palette_size (colorsFlat img).length)).map (fun k =>
    clusterMean
      (((quantizeLabels img palette_size).zip (colorsFlat img)).filterMap
        (fun p => if p.1 = k then some p.2 else none))
      ((seedColors img palette_size).getD k (0, 0, 0)))

/-! Concrete images used by witnesses and counterexamples. -/

/-- Two pixel mask, one ink pixel next to one background pixel. -/
def maskCEx : Img := ⟨2, 1, [0, 255]⟩

/-- Single pixel color image. -/
def img1 : RGBImg := ⟨1, 1, [(5, 5, 5)]⟩

/-- Two pixel color image with two distinct colors. -/
def imgAB : RGBImg := ⟨2, 1, [(0, 0, 0), (255, 0, 0)]⟩

/-- Three pixel color image used as an independent endpoint input. -/
def imgCD : RGBImg := ⟨1, 2, [(10, 20, 30), (40, 50, 60)]⟩

/-- Icon produced for img1 with foreground hex 111111, transparent
background, threshold 200 and no stroke: the single dark pixel is ink, so the
output is the solid foreground. -/
def outIcon1 : RGBAImg := ⟨1, 1, [⟨17, 17, 17, 255⟩]⟩

/-! Mask invariant lemmas. -/

theorem max01 {a b : Nat} (ha : a = 0 ∨ a = 255) (hb : b = 0 ∨ b = 255) :
    max a b = 0 ∨ max a b = 255 := by
  rcases ha with h | h <;> rcases hb with h2 | h2 <;> simp [h, h2]

theorem getPad_cases (m : Img) (x y : Int) :
    getPad m x y = 0 ∨ getPad m x y ∈ m.data := by
  unfold getPad
  split
  · rcases Nat.lt_or_ge (y.toNat * m.width + x.toNat) m.data.length with h | h
    · exact Or.inr (getD_mem_of_lt 0 h)
    · exact Or.inl (getD_eq_default_of_le 0 h)
  · exact Or.inl rfl

theorem getPad01 {m : Img} (hm : ∀ v ∈ m.data, v = 0 ∨ v = 255) (x y : Int) :
    getPad m x y = 0 ∨ getPad m x y = 255 := by
  rcases getPad_cases m x y with h | h
  · exact Or.inl h
  · exact hm _ h

theorem dilateOnce_binary {m : Img} (hm : ∀ v ∈ m.data, v = 0 ∨ v = 255) :
    ∀ v ∈ (dilateOnce m).data, v = 0 ∨ v = 255 := by
  intro v hv
  rcases mkData_mem hv with ⟨x, y, hx, hy, rfl⟩
  simp only [neighborhoodMax]
  exact max01 (max01 (max01 (getPad01 hm _ _) (getPad01 hm _ _))
      (max01 (getPad01 hm _ _) (getPad01 hm _ _)))
    (max01 (max01 (getPad01 hm _ _) (getPad01 hm _ _))
      (max01 (getPad01 hm _ _) (max01 (getPad01 hm _ _) (getPad01 hm _ _))))

theorem dilateIter_binary (n : Nat) {m : Img} (hm : ∀ v ∈ m.data, v = 0 ∨ v = 255) :
    ∀ v ∈ (dilateIter n m).data, v = 0 ∨ v = 255 := by
  induction n with
  | zero => exact hm
  | succ k ih => exact dilateOnce_binary ih

/-- C2. Every mask produced by binarize has pixel values exactly 0 or 255,
for any image and any integer threshold; smooth_edges (for any blur) and
thicken (for any iteration count) preserve that invariant on masks whose
samples all lie in the set containing 0 and 255. -/
theorem mask_stages_preserve_binary :
    (∀ (img : RGBImg) (threshold : Int),
       ∀ v ∈ (binarize img threshold).data, v = 0 ∨ v = 255) ∧
    (∀ (blur : Img → Img) (m : Img), (∀ v ∈ m.data, v = 0 ∨ v = 255) →
       ∀ v ∈ (smooth_edges blur m).data, v = 0 ∨ v = 255) ∧
    (∀ (m : Img) (it : Int), (∀ v ∈ m.data, v = 0 ∨ v = 255) →
       ∀ v ∈ (thicken m it).data, v = 0 ∨ v = 255) := by
  refine ⟨?_, ?_, ?_⟩
  · intro img threshold v hv
    simp only [binarize, imPoint] at hv
    rcases mkData_mem hv with ⟨x, y, hx, hy, rfl⟩
    split <;> simp
  · intro blur m _ v hv
    simp only [smooth_edges, imPoint] at hv
    rcases mkData_mem hv with ⟨x, y, hx, hy, rfl⟩
    split <;> simp
  · intro m it hm
    exact dilateIter_binary _ hm

/-- Witness for C2: the invariant evaluated on a concrete binary mask. -/
theorem mask_stages_preserve_binary_witness :
    (∀ v ∈ (smooth_edges id maskCEx).data, v = 0 ∨ v = 255) ∧
    (∀ v ∈ (thicken maskCEx 1).data, v = 0 ∨ v = 255) :=
  ⟨mask_stages_preserve_binary.2.1 id maskCEx (by decide),
   mask_stages_preserve_binary.2.2 maskCEx 1 (by decide)⟩

/-! Thicken iteration behavior: claims C10 and C4. -/

/-- C10. With a nonpositive iteration count, thicken performs zero dilation
rounds and returns its input mask unchanged, raising no error. -/
theorem thicken_nonpos_identity (m : Img) (it : Int) (h : it ≤ 0) :
    thicken m it = m := by
  unfold thicken
  have h0 : (max 0 it).toNat = 0 := by omega
  rw [h0]
  rfl

/-- Witness for C10 at a concrete mask and a negative count. -/
theorem thicken_nonpos_identity_witness : thicken maskCEx (-2) = maskCEx :=
  thicken_nonpos_identity maskCEx (-2) (by decide)

theorem getPad_px (m : Img) {x y : Nat} (hx : x < m.width) (hy : y < m.height) :
    getPad m (x : Int) (y : Int) = m.px x y := by
  unfold getPad
  rw [if_pos]
  · simp [Img.px]
  · refine ⟨Int.natCast_nonneg x, ?_, Int.natCast_nonneg y, ?_⟩ <;> exact_mod_cast ‹_›

theorem dilateOnce_px_zero (m : Img) {x y : Nat} (hx : x < m.width)
    (hy : y < m.height) (h0 : (dilateOnce m).px x y = 0) : m.px x y = 0 := by
  have hpx : (dilateOnce m).px x y = neighborhoodMax m x y := by
    show (mkData m.width m.height (neighborhoodMax m)).getD (y * m.width + x) 0 = _
    exact mkData_getD _ 0 hx hy
  rw [hpx] at h0
  simp only [neighborhoodMax, add_zero] at h0
  have hc : getPad m (x : Int) (y : Int) = 0 := by omega
  rw [getPad_px m hx hy] at hc
  exact hc

/-- C4 counterexample. The ink pixel set of thicken(M, 1) is not a superset
of the ink pixel set of thicken(M, 0): pixel (0, 0) of the two pixel mask is
ink before the dilation round and background after it, because the 3x3
maximum filter propagates the 255 background value over the 0 ink value. -/
theorem thicken_ink_superset_cex :
    ¬ (∀ x, x < maskCEx.width → ∀ y, y < maskCEx.height →
        (thicken maskCEx (1 - 1)).px x y = 0 → (thicken maskCEx 1).px x y = 0) := by
  decide

/-- C4 amended. Iterated dilation is antitone on ink pixels: for k at least 1,
every ink pixel (value 0, the ink encoding of the mask convention) of
thicken(M, k) is an ink pixel of thicken(M, k - 1); the maximum filter grows
the 255 valued background, so the ink region can only shrink as the
iteration count rises. -/
theorem thicken_ink_antitone (m : Img) (k : Int) (hk : 1 ≤ k) (x y : Nat)
    (hx : x < m.width) (hy : y < m.height)
    (h0 : (thicken m k).px x y = 0) : (thicken m (k - 1)).px x y = 0 := by
  unfold thicken at h0 ⊢
  have hj : (max 0 k).toNat = (max 0 (k - 1)).toNat + 1 := by omega
  rw [hj] at h0
  exact dilateOnce_px_zero _ (by rw [dilateIter_width]; exact hx)
    (by rw [dilateIter_height]; exact hy) h0

/-- Witness for the amended C4 at the concrete mask. -/
theorem thicken_ink_antitone_witness :
    (thicken ⟨1, 1, [0]⟩ 1).px 0 0 = 0 ∧ (thicken ⟨1, 1, [0]⟩ (1 - 1)).px 0 0 = 0 :=
  ⟨by decide, thicken_ink_antitone ⟨1, 1, [0]⟩ 1 (by decide) 0 0 (by decide)
    (by decide) (by decide)⟩

/-! Stroke generation: claim C5. -/

/-- C5. For a nonpositive width the stroke is the all zero mask, zero being
the no stroke encoding of the stroke band (its nonzero samples are the band
later used as the stroke alpha); for a positive width every sample is the
difference, clamped into the uint8 range, between the mask dilated
max(1, width // 2) rounds and the original mask. -/
theorem stroke_from_mask_spec (m : Img) (width : Int) :
    (width ≤ 0 → ∀ x, x < m.width → ∀ y, y < m.height →
       (stroke_from_mask m width).px x y = 0) ∧
    (0 < width → ∀ x, x < m.width → ∀ y, y < m.height →
       (stroke_from_mask m width).px x y =
         min ((thicken m (max 1 (Int.fdiv width 2))).px x y - m.px x y) 255) := by
  constructor
  · intro h x hx y hy
    unfold stroke_from_mask
    rw [if_pos h]
    exact px_mk m.width m.height _ hx hy
  · intro h x hx y hy
    unfold stroke_from_mask imSubtract
    rw [if_neg (by omega)]
    exact px_mk _ _ _ (by rw [thicken_width]; exact hx)
      (by rw [thicken_height]; exact hy)

/-- Witness for C5 at a concrete mask, at width 0 and at width 5. -/
theorem stroke_from_mask_spec_witness :
    (stroke_from_mask maskCEx 0).px 0 0 = 0 ∧
    (stroke_from_mask maskCEx 5).px 0 0 =
      min ((thicken maskCEx (max 1 (Int.fdiv 5 2))).px 0 0 - maskCEx.px 0 0) 255 :=
  ⟨(stroke_from_mask_spec maskCEx 0).1 (by decide) 0 (by decide) 0 (by decide),
   (stroke_from_mask_spec maskCEx 5).2 (by decide) 0 (by decide) 0 (by decide)⟩

/-! List access lemmas shared by the pixelate proofs. -/

theorem getD_map_lt {α β : Type} (f : α → β) (l : List α) {i : Nat} (d : β)
    (d0 : α) (h : i < l.length) : (l.map f).getD i d = f (l.getD i d0) := by
  rw [List.getD_eq_getElem?_getD, List.getElem?_map, List.getElem?_eq_getElem h,
    List.getD_eq_getElem?_getD, List.getElem?_eq_getElem h]
  rfl

theorem listMin_le (l : List Int) : ∀ v ∈ l, listMin l ≤ v := by
  induction l with
  | nil => intro v hv; cases hv
  | cons a t ih =>
    intro v hv
    cases t with
    | nil =>
      rcases List.mem_singleton.mp hv with rfl
      exact le_refl _
    | cons b t2 =>
      rcases List.mem_cons.mp hv with rfl | hv2
      · exact min_le_left _ _
      · exact le_trans (min_le_right _ _) (ih v hv2)

theorem listMin_mem (l : List Int) (hne : l ≠ []) : listMin l ∈ l := by
  induction l with
  | nil => contradiction
  | cons a t ih =>
    cases t with
    | nil => exact List.mem_singleton.mpr rfl
    | cons b t2 =>
      show min a (listMin (b :: t2)) ∈ a :: b :: t2
      rcases le_total a (listMin (b :: t2)) with hle | hle
      · rw [min_eq_left hle]
        exact List.mem_cons_self _ _
      · rw [min_eq_right hle]
        exact List.mem_cons_of_mem _ (ih (by simp))

theorem findIdx_first_zero {l : List Int} {j : Nat} (hj : j < l.length)
    (hzero : l.getD j 1 = 0) (hbefore : ∀ i, i < j → l.getD i 1 ≠ 0) :
    l.findIdx (fun v => v == (0 : Int)) = j := by
  induction l generalizing j with
  | nil => simp at hj
  | cons a t ih =>
    cases j with
    | zero =>
      have ha : a = 0 := by simpa using hzero
      rw [List.findIdx_cons]
      simp [ha]
    | succ j2 =>
      have ha : a ≠ 0 := by
        have := hbefore 0 (Nat.succ_pos j2)
        simpa using this
      rw [List.findIdx_cons]
      have hfa : (a == (0 : Int)) = false := by simp [ha]
      rw [hfa]
      have hrec := ih (j := j2) (by simpa using hj) (by simpa using hzero)
        (fun i hi => by simpa using hbefore (i + 1) (by omega))
      simp [hrec]

theorem argminList_eq_of_zero {l : List Int} {j : Nat} (hj : j < l.length)
    (hnonneg : ∀ v ∈ l, 0 ≤ v) (hzero : l.getD j 1 = 0)
    (hbefore : ∀ i, i < j → l.getD i 1 ≠ 0) :
    argminList l = j := by
  unfold argminList
  have hne : l ≠ [] := by
    intro h0
    rw [h0] at hj
    simp at hj
  have hmem0 : (0 : Int) ∈ l := by
    have hmem := getD_mem_of_lt 1 hj
    rw [hzero] at hmem
    exact hmem
  have hmin0 : listMin l = 0 :=
    le_antisymm (listMin_le l 0 hmem0) (hnonneg _ (listMin_mem l hne))
  rw [hmin0]
  exact findIdx_first_zero hj hzero hbefore

theorem argminList_lt {l : List Int} (hne : l ≠ []) : argminList l < l.length := by
  unfold argminList
  apply List.findIdx_lt_length_of_exists
  exact ⟨listMin l, listMin_mem l hne, by simp⟩

theorem sqDist_nonneg (c d : RGB) : 0 ≤ sqDist c d := by
  unfold sqDist
  positivity

theorem sqDist_self (c : RGB) : sqDist c c = 0 := by
  unfold sqDist
  ring

theorem sqDist_pos_of_ne {c d : RGB} (h : c ≠ d) : sqDist c d ≠ 0 := by
  rcases c with ⟨c1, c2, c3⟩
  rcases d with ⟨d1, d2, d3⟩
  unfold sqDist
  intro h0
  simp only at h0
  have e1 : (c1 : Int) = d1 := by
    nlinarith [sq_nonneg ((c1 : Int) - d1), sq_nonneg ((c2 : Int) - d2),
      sq_nonneg ((c3 : Int) - d3)]
  have e2 : (c2 : Int) = d2 := by
    nlinarith [sq_nonneg ((c1 : Int) - d1), sq_nonneg ((c2 : Int) - d2),
      sq_nonneg ((c3 : Int) - d3)]
  have e3 : (c3 : Int) = d3 := by
    nlinarith [sq_nonneg ((c1 : Int) - d1), sq_nonneg ((c2 : Int) - d2),
      sq_nonneg ((c3 : Int) - d3)]
  apply h
  have n1 : c1 = d1 := by exact_mod_cast e1
  have n2 : c2 = d2 := by exact_mod_cast e2
  have n3 : c3 = d3 := by exact_mod_cast e3
  rw [n1, n2, n3]

theorem dedup_length_le_of_subset {α : Type} [DecidableEq α] {l pal : List α}
    (h : ∀ v ∈ l, v ∈ pal) : l.dedup.length ≤ pal.length := by
  have h1 : l.dedup.toFinset ⊆ pal.toFinset := by
    intro a ha
    rw [List.mem_toFinset] at ha ⊢
    exact h a (List.mem_dedup.mp ha)
  have h2 := Finset.card_le_card h1
  rw [List.toFinset_card_of_nodup (l.nodup_dedup)] at h2
  exact le_trans h2 (List.toFinset_card_le pal)

theorem nClusters_pos (ps : Int) (cnt : Nat) : 2 ≤ nClusters ps cnt := by
  unfold nClusters
  omega

theorem nClusters_le {ps : Int} {cnt : Nat} (h : 2 ≤ cnt) : nClusters ps cnt ≤ cnt := by
  unfold nClusters
  omega

theorem quantize_ok (img : RGBImg) (ps : Int)
    (hn : nClusters ps (colorsFlat img).length ≤ (colorsFlat img).length) :
    quantize img ps = Except.ok (quantizeLabels img ps, quantizeCenters img ps) := by
  simp only [quantize, sampleIndices, hn, if_true]
  rfl

theorem quantize_err (img : RGBImg) (ps : Int)
    (hn : ¬ nClusters ps (colorsFlat img).length ≤ (colorsFlat img).length) :
    quantize img ps =
      Except.error "cannot take a larger sample than population when replace is false" := by
  simp only [quantize, sampleIndices, hn, if_false]

theorem quantize_ok_inv {img : RGBImg} {ps : Int} {labels : List Nat}
    {cs : List Center} (hok : quantize img ps = Except.ok (labels, cs)) :
    nClusters ps (colorsFlat img).length ≤ (colorsFlat img).length ∧
    labels = quantizeLabels img ps ∧ cs = quantizeCenters img ps := by
  by_cases hn : nClusters ps (colorsFlat img).length ≤ (colorsFlat img).length
  · rw [quantize_ok img ps hn] at hok
    have hpair := Except.ok.inj hok
    exact ⟨hn, (Prod.mk.injEq _ _ _ _ ▸ hpair.symm).1.symm.symm,
      (Prod.mk.injEq _ _ _ _ ▸ hpair.symm).2.symm.symm⟩
  · rw [quantize_err img ps hn] at hok
    exact Except.noConfusion hok

/-! Layer composition lemmas for claim C1. -/

theorem pxa_mk (w h : Nat) (f : Nat → Nat → RGBA) {x y : Nat} (hx : x < w)
    (hy : y < h) : (RGBAImg.mk w h (mkData w h f)).px x y = f x y := by
  show (mkData w h f).getD (y * w + x) ⟨0, 0, 0, 0⟩ = f x y
  exact mkData_getD f _ hx hy

theorem mkData_getD_index {α : Type} {w h i : Nat} (f : Nat → Nat → α) (d : α)
    (hi : i < w * h) : (mkData w h f).getD i d = f (i % w) (i / w) := by
  unfold mkData
  rw [List.getD_eq_getElem?_getD, List.getElem?_map, List.getElem?_range hi]
  rfl

theorem imPoint_px (m : Img) (f : Nat → Nat) (x y : Nat) :
    (imPoint m f).px x y = f (m.px x y) ∨ (imPoint m f).px x y = 0 := by
  have hpx : (imPoint m f).px x y =
      (mkData m.width m.height (fun a b => f (m.px a b))).getD (y * m.width + x) 0 := rfl
  rcases Nat.lt_or_ge (y * m.width + x) (m.width * m.height) with hlt | hge
  · left
    rw [hpx, mkData_getD_index _ 0 hlt]
    have harg : m.px ((y * m.width + x) % m.width) ((y * m.width + x) / m.width)
        = m.px x y := by
      unfold Img.px
      congr 1
      exact Nat.div_add_mod' (y * m.width + x) m.width
    rw [harg]
  · right
    rw [hpx]
    exact getD_eq_default_of_le _ (by rw [mkData_length]; exact hge)

theorem newRGBA_px_cases (w h : Nat) (c : RGBA) (x y : Nat) :
    (newRGBA w h c).px x y = c ∨ (newRGBA w h c).px x y = ⟨0, 0, 0, 0⟩ := by
  unfold newRGBA RGBAImg.px
  rcases Nat.lt_or_ge (y * w + x) (List.replicate (w * h) c).length with hl | hl
  · left
    rw [List.getD_eq_getElem?_getD, List.getElem?_eq_getElem hl]
    simp [List.getElem_replicate]
  · right
    exact getD_eq_default_of_le _ hl

theorem newRGBA_alpha_zero (w h x y : Nat) :
    ((newRGBA w h ⟨0, 0, 0, 0⟩).px x y).a = 0 := by
  rcases newRGBA_px_cases w h ⟨0, 0, 0, 0⟩ x y with hc | hc <;> rw [hc]

theorem overPixel_transparent {d s : RGBA} (hd : d.a = 0) (hs : s.a = 0) :
    overPixel d s = ⟨0, 0, 0, 0⟩ := by
  unfold overPixel
  rw [hd, hs]
  simp

theorem alphaComposite_px (dst src : RGBAImg) {x y : Nat} (hx : x < dst.width)
    (hy : y < dst.height) :
    (alphaComposite dst src).px x y = overPixel (dst.px x y) (src.px x y) := by
  unfold alphaComposite
  exact pxa_mk _ _ _ hx hy

theorem putalpha_px (img : RGBAImg) (alpha : Img) {x y : Nat} (hx : x < img.width)
    (hy : y < img.height) :
    (putalpha img alpha).px x y = { img.px x y with a := alpha.px x y } := by
  unfold putalpha
  exact pxa_mk _ _ _ hx hy

theorem fgLayer_alpha_zero (mask : Img) (W H : Nat) (fgc : RGBA) {x y : Nat}
    (hx : x < W) (hy : y < H) (hink : mask.px x y ≠ 0) :
    ((putalpha (newRGBA W H fgc)
      (imPoint mask (fun p => if 0 < p then 0 else 255))).px x y).a = 0 := by
  rw [putalpha_px _ _ hx hy]
  show (imPoint mask _).px x y = 0
  rcases imPoint_px mask (fun p => if 0 < p then 0 else 255) x y with hc | hc
  · rw [hc]
    simp [Nat.pos_of_ne_zero hink]
  · exact hc

theorem strokeLayer_alpha_zero (st : Img) (W H : Nat) (sc : RGBA) {x y : Nat}
    (hx : x < W) (hy : y < H) (hst : st.px x y = 0) :
    ((putalpha (newRGBA W H sc)
      (imPoint st (fun p => if 0 < p then 255 else 0))).px x y).a = 0 := by
  rw [putalpha_px _ _ hx hy]
  show (imPoint st _).px x y = 0
  rcases imPoint_px st (fun p => if 0 < p then 255 else 0) x y with hc | hc
  · rw [hc, hst]
    simp
  · exact hc

theorem out_alpha_core (mask : Img) (W H : Nat) (fgc : RGBA) (B : RGBAImg)
    (hW : B.width = W) (hH : B.height = H) {x y : Nat} (hx : x < W) (hy : y < H)
    (hink : mask.px x y ≠ 0) (hB : (B.px x y).a = 0) :
    ((alphaComposite B (putalpha (newRGBA W H fgc)
        (imPoint mask (fun p => if 0 < p then 0 else 255)))).px x y).a = 0 := by
  rw [alphaComposite_px B _ (by rw [hW]; exact hx) (by rw [hH]; exact hy)]
  rw [overPixel_transparent hB (fgLayer_alpha_zero mask W H fgc hx hy hink)]

theorem icon_ok_dims (img : RGBImg) (fgc : RGBA) (al : Img) (out B : RGBAImg)
    (hout : out = alphaComposite B (putalpha (newRGBA img.width img.height fgc) al)) :
    out.width = B.width ∧ out.height = B.height := by
  subst hout
  exact ⟨rfl, rfl⟩

theorem icon_base_stroke_alpha (mask : Img) (img : RGBImg) (stroke_px : Int)
    (sc : RGBA) {x y : Nat} (hx : x < img.width) (hy : y < img.height)
    (hst : (stroke_from_mask mask stroke_px).px x y = 0) :
    ((alphaComposite (newRGBA img.width img.height ⟨0, 0, 0, 0⟩)
      (putalpha (newRGBA img.width img.height sc)
        (imPoint (stroke_from_mask mask stroke_px)
          (fun p => if 0 < p then 255 else 0)))).px x y).a = 0 := by
  rw [alphaComposite_px _ _ hx hy]
  rw [overPixel_transparent (newRGBA_alpha_zero _ _ _ _)
    (strokeLayer_alpha_zero _ _ _ _ hx hy hst)]

/-- C1. Whenever the icon composition succeeds, the result is an RGBA bitmap
(the output type of the compositor) whose width and height are those of the
input image, for every input raster, foreground color string, background
parameter, threshold and stroke width; and when the background parameter is
transparent (None, or the empty string, the falsy values of the Python test)
the alpha channel of the output is zero at every pixel outside the ink region
(samples of the refined mask with value 0) and outside the stroke band
(pixels where the stroke mask is nonzero, only present for a positive stroke
width). -/
theorem flat_iconize_rgba (blur : Img → Img) (img : RGBImg) (fg : String)
    (bg : Option String) (threshold stroke_px : Int) (out : RGBAImg)
    (h : flat_iconize blur img fg bg threshold stroke_px = Except.ok out) :
    (out.width = img.width ∧ out.height = img.height) ∧
    ((bg = none ∨ bg = some "") →
      ∀ x, x < img.width → ∀ y, y < img.height →
        (icon_mask blur img threshold).px x y ≠ 0 →
        (stroke_px ≤ 0 ∨
          (stroke_from_mask (icon_mask blur img threshold) stroke_px).px x y = 0) →
        (out.px x y).a = 0) := by
  unfold flat_iconize at h
  cases hfg : getColor fg with
  | error e =>
    rw [hfg] at h
    exact Except.noConfusion h
  | ok fgc =>
    rw [hfg] at h
    have hblack : getColor "#000000" = Except.ok ⟨0, 0, 0, 255⟩ := by decide
    rcases bg with _ | s
    · by_cases hsp : 0 < stroke_px
      · rw [hblack] at h
        simp only [if_pos hsp] at h
        have hout := (Except.ok.inj h).symm
        refine ⟨icon_ok_dims img fgc _ out _ hout, ?_⟩
        intro _ x hx y hy hink hstroke
        have hst : (stroke_from_mask (icon_mask blur img threshold) stroke_px).px x y = 0 := by
          rcases hstroke with hc | hc
          · omega
          · exact hc
        rw [hout]
        exact out_alpha_core _ img.width img.height fgc _ rfl rfl hx hy hink
          (icon_base_stroke_alpha _ img stroke_px _ hx hy hst)
      · simp only [if_neg hsp] at h
        have hout := (Except.ok.inj h).symm
        refine ⟨icon_ok_dims img fgc _ out _ hout, ?_⟩
        intro _ x hx y hy hink _
        rw [hout]
        exact out_alpha_core _ img.width img.height fgc _ rfl rfl hx hy hink
          (newRGBA_alpha_zero _ _ _ _)
    · by_cases hs : s = ""
      · subst hs
        simp only [if_pos rfl] at h
        by_cases hsp : 0 < stroke_px
        · rw [hblack] at h
          simp only [if_pos hsp] at h
          have hout := (Except.ok.inj h).symm
          refine ⟨icon_ok_dims img fgc _ out _ hout, ?_⟩
          intro _ x hx y hy hink hstroke
          have hst : (stroke_from_mask (icon_mask blur img threshold) stroke_px).px x y = 0 := by
            rcases hstroke with hc | hc
            · omega
            · exact hc
          rw [hout]
          exact out_alpha_core _ img.width img.height fgc _ rfl rfl hx hy hink
            (icon_base_stroke_alpha _ img stroke_px _ hx hy hst)
        · simp only [if_neg hsp] at h
          have hout := (Except.ok.inj h).symm
          refine ⟨icon_ok_dims img fgc _ out _ hout, ?_⟩
          intro _ x hx y hy hink _
          rw [hout]
          exact out_alpha_core _ img.width img.height fgc _ rfl rfl hx hy hink
            (newRGBA_alpha_zero _ _ _ _)
      · simp only [if_neg hs] at h
        cases hbgc : getColor s with
        | error e =>
          rw [hbgc] at h
          exact Except.noConfusion h
        | ok c =>
          rw [hbgc] at h
          have hvac : ¬ ((some s : Option String) = none ∨ (some s : Option String) = some "") := by
            intro hc
            rcases hc with hc | hc
            · exact Option.noConfusion hc
            · exact hs (Option.some.inj hc)
          by_cases hsp : 0 < stroke_px
          · rw [hblack] at h
            simp only [if_pos hsp] at h
            have hout := (Except.ok.inj h).symm
            refine ⟨?_, fun hbgf => absurd hbgf hvac⟩
            have hd := icon_ok_dims img fgc _ out _ hout
            exact hd
          · simp only [if_neg hsp] at h
            have hout := (Except.ok.inj h).symm
            refine ⟨?_, fun hbgf => absurd hbgf hvac⟩
            exact icon_ok_dims img fgc _ out _ hout

/-- Witness for C1 at a concrete image, foreground color and transparent
background. -/
theorem flat_iconize_rgba_witness :
    (outIcon1.width = img1.width ∧ outIcon1.height = img1.height) ∧
    (((none : Option String) = none ∨ (none : Option String) = some "") →
      ∀ x, x < img1.width → ∀ y, y < img1.height →
        (icon_mask id img1 200).px x y ≠ 0 →
        ((0 : Int) ≤ 0 ∨
          (stroke_from_mask (icon_mask id img1 200) 0).px x y = 0) →
        (outIcon1.px x y).a = 0) :=
  flat_iconize_rgba id img1 "#111111" none 200 0 outIcon1 (by decide)

/-- C8. The unrecognized color string notacolor passed as the foreground of
the iconize endpoint is rejected for every image, background field, threshold
and stroke width: the ValueError raised while building the foreground layer
propagates to the handler, which answers with a client error carrying no
image bytes; no default color is substituted. -/
theorem iconize_invalid_color_rejected (blur : Img → Img) (img : RGBImg)
    (bg_color : String) (threshold stroke_px : Int) :
    iconize_endpoint blur img "notacolor" bg_color threshold stroke_px =
      Except.error colorError := by
  unfold iconize_endpoint flat_iconize
  rw [show getColor "notacolor" = Except.error colorError from by decide]

/-- C3. Quantization is deterministic: the clustering stage seeds its centers
from the generator fixed to seed 42, so the embedded quantize is a pure
function of the image and the palette size, and two runs on the same input
agree on both the label assignment and the palette. -/
theorem quantize_deterministic (img : RGBImg) (palette_size : Int)
    (r1 r2 : Except String (List Nat × List Center))
    (h1 : quantize img palette_size = r1) (h2 : quantize img palette_size = r2) :
    r1 = r2 := by
  rw [← h1, ← h2]

/-- Witness for C3: two runs at a concrete image and palette size. -/
theorem quantize_deterministic_witness :
    quantize imgCD 3 = quantize imgCD 3 ∧
    (Except.ok ([0, 1], [((10, 20, 30), 1), ((40, 50, 60), 1)]) :
      Except String (List Nat × List Center)) =
      Except.ok ([0, 1], [((10, 20, 30), 1), ((40, 50, 60), 1)]) :=
  ⟨rfl, quantize_deterministic imgCD 3 _ _ (by decide) (by decide)⟩

/-- C7 counterexample. A negative block size is not rejected: with block size
minus one the pixelate endpoint succeeds (the Python floor division produces a
negative target size that the max with 1 clamps to a one by one downscale)
and image bytes are produced, contradicting the claim that every blockSize
at most 0 yields a client error with no output. -/
theorem pixelate_negative_block_accepted :
    exceptOk (pixelate_endpoint imgAB 8 (-1) "false") = true := by decide

/-- C7 amended. Block size 0 is rejected for every image: the division by
zero (or, for degenerate inputs, the earlier sampling error) is caught and
answered as a client error with no image bytes. A negative block size is not
rejected: whenever the image has at least two pixels, and the request does
not fail independently inside the dithering conversion (dithering off, or
the clamped palette size within the 256 entries Pillow accepts), the
endpoint succeeds and returns an output image, because
max(1, size // blockSize) clamps the negative downscale target to one. -/
theorem pixelate_blocksize_amended :
    (∀ (img : RGBImg) (palette_size : Int) (dither : String),
       exceptOk (pixelate_endpoint img palette_size 0 dither) = false) ∧
    (∀ (img : RGBImg) (palette_size pixel_size : Int) (dither : String),
       pixel_size < 0 → 2 ≤ (colorsFlat img).length →
       ((lowerStr dither == "true") = false ∨
         nClusters palette_size (colorsFlat img).length ≤ 256) →
       exceptOk (pixelate_endpoint img palette_size pixel_size dither) = true) := by
  constructor
  · intro img palette_size dither
    unfold pixelate_endpoint pixelate
    by_cases hn : nClusters palette_size (colorsFlat img).length ≤ (colorsFlat img).length
    · rw [quantize_ok img palette_size hn]
      simp [exceptOk]
    · rw [quantize_err img palette_size hn]
      simp [exceptOk]
  · intro img palette_size pixel_size dither hps hcnt hdith
    unfold pixelate_endpoint pixelate
    rw [quantize_ok img palette_size (nClusters_le hcnt)]
    have hps0 : ¬ pixel_size = 0 := by omega
    rcases hdith with hd | hn256
    · simp [exceptOk, hps0, hd]
    · by_cases hd : (lowerStr dither == "true") = true
      · have h256 : ¬ 256 < nClusters palette_size (colorsFlat img).length := by omega
        simp [exceptOk, hps0, hd, convertAdaptiveE, h256]
      · simp [exceptOk, hps0, hd]

/-- Witness for the amended C7: block size 0 rejected and block size minus
two accepted on a concrete two pixel image with dithering off. -/
theorem pixelate_blocksize_amended_witness :
    exceptOk (pixelate_endpoint imgCD 8 0 "false") = false ∧
    ((-2 : Int) < 0 ∧ 2 ≤ (colorsFlat imgCD).length ∧
      ((lowerStr "false" == "true") = false ∨
        nClusters 8 (colorsFlat imgCD).length ≤ 256) ∧
      exceptOk (pixelate_endpoint imgCD 8 (-2) "false") = true) :=
  ⟨pixelate_blocksize_amended.1 imgCD 8 "false",
   by decide, by decide, Or.inl (by decide),
   pixelate_blocksize_amended.2 imgCD 8 (-2) "false" (by decide) (by decide)
     (Or.inl (by decide))⟩

theorem getD_eq_get {α : Type} (l : List α) (d : α) {i : Nat} (h : i < l.length) :
    l.getD i d = l.get ⟨i, h⟩ := by
  rw [List.getD_eq_getElem?_getD, List.getElem?_eq_getElem h]
  rfl

theorem seedColors_length (img : RGBImg) (ps : Int) :
    (seedColors img ps).length = nClusters ps (colorsFlat img).length := by
  simp [seedColors]

theorem seedColors_getD (img : RGBImg) (ps : Int) {j : Nat}
    (hj : j < nClusters ps (colorsFlat img).length) :
    (seedColors img ps).getD j (0, 0, 0) = (colorsFlat img).getD j (0, 0, 0) := by
  unfold seedColors
  rw [getD_map_lt (fun i => (colorsFlat img).getD i (0, 0, 0)) (List.range _)
    (0, 0, 0) 0 (by simpa using hj)]
  have hr : (List.range (nClusters ps (colorsFlat img).length)).getD j 0 = j := by
    rw [List.getD_eq_getElem?_getD, List.getElem?_range hj]
    rfl
  rw [hr]

theorem quantizeLabels_mem (img : RGBImg) (ps : Int)
    (hnd : (seedColors img ps).Nodup)
    (hncnt : nClusters ps (colorsFlat img).length ≤ (colorsFlat img).length)
    {j : Nat} (hj : j < nClusters ps (colorsFlat img).length) :
    j ∈ quantizeLabels img ps := by
  have hjcnt : j < (colorsFlat img).length := lt_of_lt_of_le hj hncnt
  refine List.mem_map.mpr ⟨(colorsFlat img).getD j (0, 0, 0),
    getD_mem_of_lt _ hjcnt, ?_⟩
  apply argminList_eq_of_zero (j := j)
  · rw [List.length_map, seedColors_length]
    exact hj
  · intro v hv
    rcases List.mem_map.mp hv with ⟨c0, _, rfl⟩
    exact sqDist_nonneg _ _
  · rw [getD_map_lt _ _ 1 (0, 0, 0) (by rw [seedColors_length]; exact hj)]
    rw [seedColors_getD img ps hj]
    exact sqDist_self _
  · intro i hi
    have hin : i < nClusters ps (colorsFlat img).length := lt_trans hi hj
    rw [getD_map_lt _ _ 1 (0, 0, 0) (by rw [seedColors_length]; exact hin)]
    rw [seedColors_getD img ps hin]
    apply sqDist_pos_of_ne
    intro hcontra
    have hbi : i < (seedColors img ps).length := by rw [seedColors_length]; exact hin
    have hbj : j < (seedColors img ps).length := by rw [seedColors_length]; exact hj
    have hgi : (seedColors img ps).get ⟨i, hbi⟩ = (colorsFlat img).getD i (0, 0, 0) := by
      rw [← getD_eq_get (seedColors img ps) (0, 0, 0) hbi]
      exact seedColors_getD img ps hin
    have hgj : (seedColors img ps).get ⟨j, hbj⟩ = (colorsFlat img).getD j (0, 0, 0) := by
      rw [← getD_eq_get (seedColors img ps) (0, 0, 0) hbj]
      exact seedColors_getD img ps hj
    have heq : (seedColors img ps).get ⟨j, hbj⟩ = (seedColors img ps).get ⟨i, hbi⟩ := by
      rw [hgi, hgj, hcontra]
    have := (List.Nodup.get_inj_iff hnd).mp heq
    simp at this
    omega

/-- C9 counterexample. The single pixel image satisfies the premise of the
claim (it holds min(k, pixelCount) = 1 distinct color for k = 2), yet the
quantizer produces no label assignment at all: sampling max(2, min(k, 1)) = 2
distinct indices from a population of one pixel raises a ValueError inside
rng.choice, so no run of quantize uses even one palette entry there. This
failure is independent of the modelled sample values. -/
theorem quantize_min_colors_cex :
    ¬ ∃ labels cs, quantize img1 2 = Except.ok (labels, cs) ∧
      min 2 ((colorsFlat img1).length : Int) ≤ (labels.dedup.length : Int) := by
  intro hex
  rcases hex with ⟨labels, cs, hok, _⟩
  rw [show quantize img1 2 = Except.error
    "cannot take a larger sample than population when replace is false" from by decide] at hok
  exact Except.noConfusion hok

/-- C9 amended. Whenever quantize succeeds and the colors at the seed sampled
indices are pairwise distinct, the label assignment uses at least
min(k, pixelCount) distinct palette entries for every requested palette size
k of at least 2: each seed pixel is assigned the label of its own center
(its distance is zero and to every other seed center nonzero), so all
max(2, min(k, pixelCount)) labels occur. The distinctness hypothesis is
necessary: pixel counts below two make the sampling step raise (the
counterexample), and duplicate colors among the sampled seeds collapse
labels even when the image holds enough distinct colors elsewhere. -/
theorem quantize_used_colors (img : RGBImg) (k : Int) (hk : 2 ≤ k)
    (hnd : (seedColors img k).Nodup) (labels : List Nat) (cs : List Center)
    (hok : quantize img k = Except.ok (labels, cs)) :
    min k ((colorsFlat img).length : Int) ≤ (labels.dedup.length : Int) := by
  obtain ⟨hncnt, hlabels, _⟩ := quantize_ok_inv hok
  subst hlabels
  have hsub : ∀ j ∈ List.range (nClusters k (colorsFlat img).length),
      j ∈ (quantizeLabels img k).dedup := by
    intro j hj
    exact List.mem_dedup.mpr (quantizeLabels_mem img k hnd hncnt (List.mem_range.mp hj))
  have hcard : nClusters k (colorsFlat img).length ≤ (quantizeLabels img k).dedup.length := by
    have h1 : (List.range (nClusters k (colorsFlat img).length)).toFinset ⊆
        (quantizeLabels img k).dedup.toFinset := by
      intro a ha
      rw [List.mem_toFinset] at ha ⊢
      exact hsub a ha
    have h2 := Finset.card_le_card h1
    rw [List.toFinset_card_of_nodup (List.nodup_range _),
      List.toFinset_card_of_nodup ((quantizeLabels img k).nodup_dedup)] at h2
    simpa using h2
  have hminn : min k ((colorsFlat img).length : Int) ≤
      (nClusters k (colorsFlat img).length : Int) := by
    unfold nClusters
    omega
  omega

/-- Witness for the amended C9 at a concrete two pixel, two color image. -/
theorem quantize_used_colors_witness :
    ((2 : Int) ≤ 2 ∧ (seedColors imgAB 2).Nodup ∧
      quantize imgAB 2 = Except.ok ([0, 1], [((0, 0, 0), 1), ((255, 0, 0), 1)])) ∧
    min 2 ((colorsFlat imgAB).length : Int) ≤ (([0, 1] : List Nat).dedup.length : Int) :=
  ⟨⟨by decide, by decide, by decide⟩,
   quantize_used_colors imgAB 2 (by decide) (by decide) [0, 1]
     [((0, 0, 0), 1), ((255, 0, 0), 1)] (by decide)⟩

theorem colorsFlat_length (img : RGBImg) :
    (colorsFlat img).length = img.width * img.height := by
  unfold colorsFlat
  exact mkData_length _ _ _

theorem nearest_self {pal : List RGB} (hnd : pal.Nodup) {c : RGB} (hc : c ∈ pal) :
    pal.getD (argminList (pal.map (fun p => sqDist c p))) c = c := by
  rcases List.getElem_of_mem hc with ⟨j, hj, hget⟩
  have hgetj : pal.get ⟨j, hj⟩ = c := by
    rw [List.get_eq_getElem]
    exact hget
  have harg : argminList (pal.map (fun p => sqDist c p)) = j := by
    apply argminList_eq_of_zero (j := j)
    · rw [List.length_map]
      exact hj
    · intro v hv
      rcases List.mem_map.mp hv with ⟨p, _, rfl⟩
      exact sqDist_nonneg _ _
    · rw [getD_map_lt _ _ 1 c hj, getD_eq_get pal c hj, hgetj]
      exact sqDist_self _
    · intro i hi
      have hilt : i < pal.length := lt_trans hi hj
      rw [getD_map_lt _ _ 1 c hilt]
      apply sqDist_pos_of_ne
      intro hceq
      have hgi : pal.get ⟨i, hilt⟩ = c := by
        rw [← getD_eq_get pal c hilt]
        exact hceq.symm
      have heq : pal.get ⟨i, hilt⟩ = pal.get ⟨j, hj⟩ := by
        rw [hgi, hgetj]
      have := (List.Nodup.get_inj_iff hnd).mp heq
      simp at this
      omega
  rw [harg, getD_eq_get pal c hj, hgetj]

theorem convertAdaptive_id (n : Nat) (img2 : RGBImg)
    (hd : img2.data.dedup.length ≤ n) : convertAdaptive n img2 = img2 := by
  unfold convertAdaptive
  simp only []
  rw [List.take_of_length_le hd]
  have hmap : ∀ c ∈ img2.data,
      img2.data.dedup.getD (argminList (img2.data.dedup.map (fun p => sqDist c p))) c
        = c :=
    fun c hc => nearest_self (List.nodup_dedup _) (List.mem_dedup.mpr hc)
  rw [List.map_congr_left (g := fun c => c) hmap, List.map_id']

theorem mappedImage_colors {img : RGBImg} {labels : List Nat} {centers : List Center}
    (h0 : 0 < centers.length) (hlab : ∀ l ∈ labels, l < centers.length) :
    ∀ v ∈ (mappedImage img labels centers).data, v ∈ centers.map centerColor := by
  intro v hv
  simp only [mappedImage] at hv
  rcases mkData_mem hv with ⟨x, y, hx, hy, rfl⟩
  have hl : labels.getD (y * img.width + x) 0 < centers.length := by
    rcases Nat.lt_or_ge (y * img.width + x) labels.length with hi | hi
    · exact hlab _ (getD_mem_of_lt _ hi)
    · rw [getD_eq_default_of_le _ hi]
      exact h0
  exact List.mem_map.mpr
    ⟨centers.getD (labels.getD (y * img.width + x) 0) ((0, 0, 0), 1),
     getD_mem_of_lt _ hl, rfl⟩

theorem resizeNearest_colors (src : RGBImg) (w2 h2 : Nat) (hw : 0 < src.width)
    (hh : 0 < src.height) (hlen : src.data.length = src.width * src.height) :
    ∀ v ∈ (resizeNearest src w2 h2).data, v ∈ src.data := by
  intro v hv
  simp only [resizeNearest] at hv
  rcases mkData_mem hv with ⟨x, y, hx, hy, rfl⟩
  have hx2 : srcIndex w2 src.width x < src.width := by
    unfold srcIndex
    omega
  have hy2 : srcIndex h2 src.height y < src.height := by
    unfold srcIndex
    omega
  unfold RGBImg.px
  apply getD_mem_of_lt
  rw [hlen]
  exact rowmajor_lt hx2 hy2

theorem quantizeLabels_lt (img : RGBImg) (ps : Int) :
    ∀ l ∈ quantizeLabels img ps, l < nClusters ps (colorsFlat img).length := by
  intro l hl
  rcases List.mem_map.mp hl with ⟨c, _, rfl⟩
  have hne : (seedColors img ps).map (fun c0 => sqDist c c0) ≠ [] := by
    intro h0
    have hlen := congrArg List.length h0
    rw [List.length_map, seedColors_length] at hlen
    have := nClusters_pos ps (colorsFlat img).length
    simp at hlen
    omega
  have := argminList_lt hne
  rwa [List.length_map, seedColors_length] at this

theorem quantizeCenters_length (img : RGBImg) (ps : Int) :
    (quantizeCenters img ps).length = nClusters ps (colorsFlat img).length := by
  simp [quantizeCenters]

theorem conv_resize_comm (n : Nat) (mapped : RGBImg) (dw dh W H : Nat)
    (hdw : 0 < dw) (hdh : 0 < dh) (hmw : 0 < mapped.width) (hmh : 0 < mapped.height)
    (hmlen : mapped.data.length = mapped.width * mapped.height)
    (pal : List RGB) (hpal : pal.length = n)
    (hcolors : ∀ v ∈ mapped.data, v ∈ pal) :
    convertAdaptiveE n (resizeNearest (resizeNearest mapped dw dh) W H) =
      (match convertAdaptiveE n (resizeNearest mapped dw dh) with
       | Except.error e => Except.error e
       | Except.ok down2 => Except.ok (resizeNearest down2 W H)) := by
  have hdown_colors : ∀ v ∈ (resizeNearest mapped dw dh).data, v ∈ pal :=
    fun v hv => hcolors _ (resizeNearest_colors mapped dw dh hmw hmh hmlen v hv)
  have hdownlen : (resizeNearest mapped dw dh).data.length = dw * dh := by
    simp [resizeNearest, mkData_length]
  have hup_colors :
      ∀ v ∈ (resizeNearest (resizeNearest mapped dw dh) W H).data, v ∈ pal :=
    fun v hv => hdown_colors _
      (resizeNearest_colors (resizeNearest mapped dw dh) W H hdw hdh hdownlen v hv)
  have h1 : (resizeNearest mapped dw dh).data.dedup.length ≤ n := by
    have := dedup_length_le_of_subset hdown_colors
    omega
  have h2 : (resizeNearest (resizeNearest mapped dw dh) W H).data.dedup.length ≤ n := by
    have := dedup_length_le_of_subset hup_colors
    omega
  unfold convertAdaptiveE
  by_cases h256 : 256 < n
  · rw [if_pos h256, if_pos h256]
  · rw [if_neg h256, if_neg h256]
    show Except.ok (convertAdaptive n (resizeNearest (resizeNearest mapped dw dh) W H)) =
      Except.ok (resizeNearest (convertAdaptive n (resizeNearest mapped dw dh)) W H)
    rw [convertAdaptive_id n _ h2, convertAdaptive_id n _ h1]

/-- C6. For every image and every block size of at least one, the pixelate
pipeline with dithering requested computes the same output as the pipeline
the specification describes, in which the adaptive palette reduction is
applied to the intermediate downsampled image between the downscale and the
upscale. The source text applies the conversion to the upscaled image, but
the image reaching that stage has been through the n cluster quantization,
so it carries at most n distinct colors, the adaptive palette of n entries
retains each of them, and the conversion is the identity at either position
of the pipeline; when the clamped palette size exceeds the 256 entries
Pillow accepts, both orders raise the identical error. The two orders
therefore agree, output or error, on every input. -/
theorem pixelate_dither_order (img : RGBImg) (palette_size pixel_size : Int)
    (hbs : 1 ≤ pixel_size) :
    pixelate img palette_size pixel_size true =
      pixelateSpecDither img palette_size pixel_size := by
  by_cases hn : nClusters palette_size (colorsFlat img).length ≤ (colorsFlat img).length
  · unfold pixelate pixelateSpecDither
    rw [quantize_ok img palette_size hn]
    have hps0 : ¬ pixel_size = 0 := by omega
    have hcnt2 : 2 ≤ (colorsFlat img).length := le_trans (nClusters_pos _ _) hn
    have hwh : (colorsFlat img).length = img.width * img.height := colorsFlat_length img
    have hw : 0 < img.width := by
      rcases Nat.eq_zero_or_pos img.width with h0 | h0
      · rw [h0, Nat.zero_mul] at hwh
        omega
      · exact h0
    have hh : 0 < img.height := by
      rcases Nat.eq_zero_or_pos img.height with h0 | h0
      · rw [h0, Nat.mul_zero] at hwh
        omega
      · exact h0
    have hdw : 0 < (max 1 (Int.fdiv (img.width : Int) pixel_size)).toNat := by
      have h1 : (1 : Int) ≤ max 1 (Int.fdiv (img.width : Int) pixel_size) :=
        le_max_left _ _
      omega
    have hdh : 0 < (max 1 (Int.fdiv (img.height : Int) pixel_size)).toNat := by
      have h1 : (1 : Int) ≤ max 1 (Int.fdiv (img.height : Int) pixel_size) :=
        le_max_left _ _
      omega
    simp only [if_neg hps0]
    have hcen_len : ((quantizeCenters img palette_size).map centerColor).length =
        nClusters palette_size (colorsFlat img).length := by
      rw [List.length_map]
      exact quantizeCenters_length img palette_size
    have hmap_colors : ∀ v ∈ (mappedImage img (quantizeLabels img palette_size)
        (quantizeCenters img palette_size)).data,
        v ∈ (quantizeCenters img palette_size).map centerColor := by
      apply mappedImage_colors
      · rw [quantizeCenters_length img palette_size]
        have := nClusters_pos palette_size (colorsFlat img).length
        omega
      · intro l hl
        rw [quantizeCenters_length img palette_size]
        exact quantizeLabels_lt img palette_size l hl
    have hmlen : (mappedImage img (quantizeLabels img palette_size)
        (quantizeCenters img palette_size)).data.length =
        (mappedImage img (quantizeLabels img palette_size)
          (quantizeCenters img palette_size)).width *
        (mappedImage img (quantizeLabels img palette_size)
          (quantizeCenters img palette_size)).height := by
      simp [mappedImage, mkData_length]
    exact conv_resize_comm _ _ _ _ _ _ hdw hdh hw hh hmlen
      ((quantizeCenters img palette_size).map centerColor) hcen_len hmap_colors
  · unfold pixelate pixelateSpecDither
    rw [quantize_err img palette_size hn]

/-- Witness for C6 at a concrete image and block size. -/
theorem pixelate_dither_order_witness :
    (1 : Int) ≤ 2 ∧ pixelate imgAB 2 2 true = pixelateSpecDither imgAB 2 2 :=
  ⟨by decide, pixelate_dither_order imgAB 2 2 (by decide)⟩
